import Mathlib

/-!
Verification of the ai-agent repository's specification against its source.

The repository ships a Tauri/React front end (`src/src/App.tsx`,
`src/src/components/*`) for a conversational agent.  The agent core
itself (Agent Orchestrator, Tool Process Manager, History Store) is the
Rust backend described by the spec and by the repository README; only its
Tauri entry points are visible from the front end, so those parts are
modelled from the spec (each such definition carries a doc comment that
says so).  The front-end code that is present is embedded directly.

Strings are embedded as Lean `String` / `List Char`; JavaScript arrays as
`List`; the orchestrator's asynchronous turn becomes an explicit state
transformation.
-/

/-- Embeds `Message` from `src/src/App.tsx` (role and content), extended with the
optional tool-call metadata the spec's data model (§3) gives a message; the
front-end messages all carry `none`. -/
structure Message where
  role : String
  content : String
  toolCall : Option (Nat × String × String) := none
deriving Repr, DecidableEq

/-- Embeds `ChatSettings` from `src/src/App.tsx`. -/
structure ChatSettings where
  openai_api_key : String
  openai_api_base_url : String
  openai_api_model : String
  history_path : String
deriving Repr, DecidableEq

/-- Embeds `Conversation` from `src/src/App.tsx`. -/
structure Conversation where
  id : String
  title : String
  messages : List Message
  createdAt : String
deriving Repr, DecidableEq

/-! ## Front-end conversation list (`src/src/App.tsx`) -/

/-- Embeds `createNewConversation` from `src/src/App.tsx`:
`setConversations(prev => [...prev, newConversation])` — the new
conversation is appended at the end of the list. -/
def createNewConversation (convs : List Conversation) (c : Conversation) :
    List Conversation :=
  convs ++ [c]

/-- Embeds `deleteConversation` from `src/src/App.tsx`:
`conversations.filter(conv => conv.id !== id)`. -/
def deleteConversation (convs : List Conversation) (i : String) :
    List Conversation :=
  convs.filter (fun conv => conv.id != i)

/-- Embeds `listConversations`: the front end renders `conversations` in array
order (`conversations.map(...)` in `src/src/App.tsx`), so the listing is
the list itself. -/
def listConversations (convs : List Conversation) : List Conversation :=
  convs

/-! ## `UserInput` component (`src/unnamed/part_004`) -/

/-- JavaScript `String.prototype.trim`: strip whitespace from both ends
(embedded over the character list of the string). -/
def jsTrim (s : String) : String :=
  ⟨((s.data.dropWhile Char.isWhitespace).reverse.dropWhile
      Char.isWhitespace).reverse⟩

/-- The local state of the `UserInput` component: the controlled
`input` string and the `disabled` prop. -/
structure UserInputState where
  input : String
  disabled : Bool
deriving Repr, DecidableEq

/-- Embeds `UserInput.sendMessage` from `src/unnamed/part_004`:
`if (input.trim() && !disabled) { onSendMessage(input); setInput(''); }`.
Returns the new state and `some m` exactly when `onSendMessage m` was
invoked. -/
def uiSendMessage (st : UserInputState) : UserInputState × Option String :=
  if jsTrim st.input != "" && !st.disabled then
    ({ input := "", disabled := st.disabled }, some st.input)
  else
    (st, none)

/-- Embeds `UserInput.handleKeyDown` from `src/unnamed/part_004`:
`if (e.key === 'Enter' && !e.shiftKey) { e.preventDefault(); sendMessage(); }`. -/
def uiHandleKeyDown (key : String) (shift : Bool) (st : UserInputState) :
    UserInputState × Option String :=
  if key == "Enter" && !shift then uiSendMessage st else (st, none)

/-- C8: after creating three conversations and deleting the middle one,
the listing contains exactly the two remaining conversations, in their
original creation order. -/
theorem listConversations_after_delete_middle (a b c : Conversation)
    (hab : a.id ≠ b.id) (hcb : c.id ≠ b.id) :
    listConversations
      (deleteConversation
        (createNewConversation
          (createNewConversation (createNewConversation [] a) b) c)
        b.id) = [a, c] := by
  have h1 : (a.id != b.id) = true := bne_iff_ne.mpr hab
  have h2 : (c.id != b.id) = true := bne_iff_ne.mpr hcb
  simp [listConversations, deleteConversation, createNewConversation,
    List.filter, h1, h2]

/-- Witness for C8 at concrete conversations. -/
theorem listConversations_after_delete_middle_witness :
    (⟨"id-a", "A", [], "t1"⟩ : Conversation).id ≠
        (⟨"id-b", "B", [], "t2"⟩ : Conversation).id ∧
      listConversations
        (deleteConversation
          (createNewConversation
            (createNewConversation
              (createNewConversation [] ⟨"id-a", "A", [], "t1"⟩)
              ⟨"id-b", "B", [], "t2"⟩)
            ⟨"id-c", "C", [], "t3"⟩)
          (⟨"id-b", "B", [], "t2"⟩ : Conversation).id) =
        [⟨"id-a", "A", [], "t1"⟩, ⟨"id-c", "C", [], "t3"⟩] :=
  ⟨by decide,
    listConversations_after_delete_middle _ _ _ (by decide) (by decide)⟩

/-- C10: `onSendMessage` fires only when the trimmed input is non-empty
and the component is not disabled; when it fires it receives the input
verbatim (untrimmed) and the field is reset to the empty string; Enter
without Shift takes the same send path. -/
theorem uiSendMessage_spec (st : UserInputState) (m : String) :
    ((uiSendMessage st).2 = some m →
      jsTrim st.input ≠ "" ∧ st.disabled = false ∧ m = st.input ∧
        (uiSendMessage st).1.input = "") ∧
    uiHandleKeyDown "Enter" false st = uiSendMessage st := by
  constructor
  · intro h
    unfold uiSendMessage at h ⊢
    by_cases hc : (jsTrim st.input != "" && !st.disabled) = true
    · simp only [hc, if_pos] at h ⊢
      have h1 : (jsTrim st.input != "") = true := (Bool.and_eq_true _ _ ▸ hc).1
      have h2 : (!st.disabled) = true := (Bool.and_eq_true _ _ ▸ hc).2
      refine ⟨by simpa using h1, by simpa using h2, ?_, by simp⟩
      simpa using (Option.some.injEq _ _ ▸ h).symm
    · simp only [hc] at h
      simp at h
  · unfold uiHandleKeyDown
    simp

/-- Witness for C10: input `" hi "` (untrimmed, with spaces), enabled. -/
theorem uiSendMessage_spec_witness :
    (uiSendMessage ⟨" hi ", false⟩).2 = some " hi " ∧
      (jsTrim " hi " ≠ "" ∧ (false : Bool) = false ∧ " hi " = " hi " ∧
        (uiSendMessage ⟨" hi ", false⟩).1.input = "") ∧
      uiHandleKeyDown "Enter" false ⟨" hi ", false⟩ =
        uiSendMessage ⟨" hi ", false⟩ := by
  have hs : (uiSendMessage ⟨" hi ", false⟩).2 = some " hi " := by decide
  exact ⟨hs, (uiSendMessage_spec ⟨" hi ", false⟩ " hi ").1 hs,
    (uiSendMessage_spec ⟨" hi ", false⟩ " hi ").2⟩

/-! ## Agent Orchestrator (spec-modelled)

The orchestrator, the Completion Client and the History Store live in the
Rust backend, which is not under `src/`; the front end only reaches them
through the Tauri commands `initialize_agent`, `send_message`,
`get_conversation_history` (`src/src/App.tsx`).  They are modelled from
the spec (§4.2, §4.4, §6, §7, §9). -/

/-- Modelled from the spec (§4.2): `CompletionResult` is a tagged union of
a final answer or a structured tool-call request. -/
inductive CompletionResult where
  | FinalAnswer (text : String)
  | ToolCallRequest (callId : Nat) (toolName : String) (args : String)

/-- Modelled from the spec (§7): orchestrator-level errors surfaced to the
caller — `Busy` re-entrance rejection (§5) and `IOFailure` from the
History Store (§7). -/
inductive AgentError where
  | Busy
  | IOFailure
deriving Repr, DecidableEq

/-- Modelled from the spec (§4.1): outcome of a History Store `append`. -/
inductive PersistOutcome where
  | ok
  | ioFailure
deriving Repr, DecidableEq

/-- Modelled from the spec (§9): the maximum tool-call depth per turn is
an unspecified small fixed constant; the design note suggests 5. -/
def maxToolDepth : Nat := 5

/-- The user message appended when a turn starts (§4.4). -/
def userMessage (text : String) : Message :=
  { role := "user", content := text }

/-- Modelled from the spec (§4.4): the tool-call record appended when the
Completion Client returns a `ToolCallRequest`. -/
def toolCallMessage (id : Nat) (name args : String) : Message :=
  { role := "assistant", content := "", toolCall := some (id, name, args) }

/-- Modelled from the spec (§4.4): the tool-result (or tool-error)
Message appended when the Tool Process Manager answers; a single tool
failure is folded into a tool Message rather than aborting the turn. -/
def toolResultMessage (r : Except String String) : Message :=
  { role := "tool",
    content := match r with
      | .ok v => v
      | .error e => "tool error: " ++ e }

/-- Modelled from the spec (§4.4): the assistant Message synthesized when
the tool-call depth bound is exceeded. -/
def limitMessage : Message :=
  { role := "assistant",
    content := "Tool-call limit reached; stopping this turn." }

/-- Modelled from the spec (§4.4, §9): the tool-call resolution loop as an
explicit bounded iteration.  `complete` is the Completion Client,
`tool` the Tool Process Manager's `call`; at depth 0 the turn ends with
the synthesized `limitMessage`. -/
def resolveLoop (complete : List Message → CompletionResult)
    (tool : Nat → String → String → Except String String) :
    Nat → List Message → List Message
  | 0, msgs => msgs ++ [limitMessage]
  | depth + 1, msgs =>
    match complete msgs with
    | .FinalAnswer t => msgs ++ [{ role := "assistant", content := t }]
    | .ToolCallRequest id name args =>
      resolveLoop complete tool depth
        (msgs ++ [toolCallMessage id name args,
                  toolResultMessage (tool id name args)])

/-- Modelled from the spec (§2, §4.4): the orchestrator session — the
in-memory message sequence of the active conversation, the persisted
record held by the History Store for it, the number of `append` calls
made, and the single-active-turn busy flag (§5). -/
structure Session where
  messages : List Message
  persisted : List Message
  appendCount : Nat
  busy : Bool
deriving Repr, DecidableEq

/-- Modelled from the spec (§4.4, §5, §6, §7): `sendMessage(text)`.
A call while a turn is in flight is rejected with `Busy` and changes
nothing; otherwise the user Message is appended, the tool-call loop runs,
persistence is attempted exactly once, and the full updated sequence is
returned.  On `IOFailure` the in-memory sequence is kept (not rolled
back) and the error is surfaced. -/
def sendMessage (complete : List Message → CompletionResult)
    (tool : Nat → String → String → Except String String)
    (persist : List Message → PersistOutcome)
    (s : Session) (text : String) :
    Session × Except AgentError (List Message) :=
  if s.busy then
    (s, .error .Busy)
  else
    let final := resolveLoop complete tool maxToolDepth
      (s.messages ++ [userMessage text])
    match persist final with
    | .ok =>
      ({ messages := final, persisted := final,
         appendCount := s.appendCount + 1, busy := false }, .ok final)
    | .ioFailure =>
      ({ messages := final, persisted := s.persisted,
         appendCount := s.appendCount + 1, busy := false },
       .error .IOFailure)

/-- The History Store `append` that always succeeds (used to state the
no-drift property C2). -/
def persistOk : List Message → PersistOutcome := fun _ => .ok

/-- One completed turn of the session, discarding the returned value. -/
def stepTurn (complete : List Message → CompletionResult)
    (tool : Nat → String → String → Except String String)
    (s : Session) (text : String) : Session :=
  (sendMessage complete tool persistOk s text).1

/-- A sequence of turns. -/
def runTurns (complete : List Message → CompletionResult)
    (tool : Nat → String → String → Except String String)
    (texts : List String) (s : Session) : Session :=
  texts.foldl (stepTurn complete tool) s

/-- Modelled from the spec (§2, §4.4): a message list has no orphaned
tool-call record when every message carrying tool-call metadata is
immediately followed by a tool Message resolving it. -/
def resolvedToolCalls : List Message → Bool
  | [] => true
  | m :: rest =>
    (m.toolCall.isNone ||
      (match rest with
       | n :: _ => n.role == "tool"
       | [] => false)) && resolvedToolCalls rest

/-! ### Lemmas about the tool-call loop -/

/-- Every run of the loop appends some middle tool-exchange messages and a
final assistant Message. -/
theorem resolveLoop_shape (complete : List Message → CompletionResult)
    (tool : Nat → String → String → Except String String) :
    ∀ (d : Nat) (msgs : List Message),
      ∃ mid last, resolveLoop complete tool d msgs = msgs ++ mid ++ [last] ∧
        last.role = "assistant" ∧ last.toolCall = none ∧
        ∀ m ∈ mid, m.toolCall ≠ none ∨ m.role = "tool" := by
  intro d
  induction d with
  | zero =>
    intro msgs
    exact ⟨[], limitMessage, by simp [resolveLoop], rfl, rfl, by simp⟩
  | succ d ih =>
    intro msgs
    cases hc : complete msgs with
    | FinalAnswer t =>
      refine ⟨[], { role := "assistant", content := t }, ?_, rfl, rfl, by simp⟩
      simp [resolveLoop, hc]
    | ToolCallRequest id name args =>
      obtain ⟨mid, last, heq, hrole, hnone, hmid⟩ :=
        ih (msgs ++ [toolCallMessage id name args,
                     toolResultMessage (tool id name args)])
      refine ⟨[toolCallMessage id name args,
               toolResultMessage (tool id name args)] ++ mid, last, ?_,
        hrole, hnone, ?_⟩
      · simp only [resolveLoop, hc]
        rw [heq]
        simp
      · intro m hm
        have hm' : m = toolCallMessage id name args ∨
            m = toolResultMessage (tool id name args) ∨ m ∈ mid := by
          simpa using hm
        rcases hm' with rfl | rfl | hm'
        · exact Or.inl (by simp [toolCallMessage])
        · exact Or.inr rfl
        · exact hmid m hm'

/-- If the Completion Client keeps demanding tool calls, the loop runs for
exactly `d` rounds and ends with the synthesized `limitMessage`; no other
plain assistant Message is produced. -/
theorem resolveLoop_allToolCalls
    (complete : List Message → CompletionResult)
    (tool : Nat → String → String → Except String String)
    (hAll : ∀ h, ∃ id nm args, complete h = .ToolCallRequest id nm args) :
    ∀ (d : Nat) (msgs : List Message),
      ∃ mid, resolveLoop complete tool d msgs = msgs ++ mid ++ [limitMessage] ∧
        mid.length = 2 * d ∧
        ∀ m ∈ mid, ¬(m.role = "assistant" ∧ m.toolCall = none) := by
  intro d
  induction d with
  | zero =>
    intro msgs
    exact ⟨[], by simp [resolveLoop], rfl, by simp⟩
  | succ d ih =>
    intro msgs
    obtain ⟨id, nm, args, hc⟩ := hAll msgs
    obtain ⟨mid, heq, hlen, hmid⟩ :=
      ih (msgs ++ [toolCallMessage id nm args,
                   toolResultMessage (tool id nm args)])
    refine ⟨[toolCallMessage id nm args,
             toolResultMessage (tool id nm args)] ++ mid, ?_, ?_, ?_⟩
    · simp only [resolveLoop, hc]
      rw [heq]
      simp
    · simp [hlen]
      omega
    · intro m hm
      have hm' : m = toolCallMessage id nm args ∨
          m = toolResultMessage (tool id nm args) ∨ m ∈ mid := by
        simpa using hm
      rcases hm' with rfl | rfl | hm'
      · intro hcontra
        simp [toolCallMessage] at hcontra
      · intro hcontra
        simp [toolResultMessage] at hcontra
      · exact hmid m hm'

/-- Appending a block that is itself free of orphaned tool calls keeps a
message list free of orphaned tool calls. -/
theorem resolvedToolCalls_append (l suf : List Message)
    (hl : resolvedToolCalls l = true) (hs : resolvedToolCalls suf = true) :
    resolvedToolCalls (l ++ suf) = true := by
  induction l with
  | nil => simpa using hs
  | cons m rest ih =>
    simp only [resolvedToolCalls, Bool.and_eq_true] at hl
    obtain ⟨hhead, htail⟩ := hl
    cases rest with
    | nil =>
      simp only [List.nil_append, List.cons_append, resolvedToolCalls,
        Bool.and_eq_true]
      have hnone : m.toolCall.isNone = true := by
        simpa using hhead
      refine ⟨by simp [hnone], ?_⟩
      simpa using hs
    | cons n rest2 =>
      have hres := ih htail
      simp only [List.cons_append, resolvedToolCalls, Bool.and_eq_true] at hres ⊢
      exact ⟨by simpa using hhead, hres⟩

/-- The tool-call loop never introduces an orphaned tool-call record. -/
theorem resolveLoop_resolved (complete : List Message → CompletionResult)
    (tool : Nat → String → String → Except String String) :
    ∀ (d : Nat) (msgs : List Message),
      resolvedToolCalls msgs = true →
      resolvedToolCalls (resolveLoop complete tool d msgs) = true := by
  intro d
  induction d with
  | zero =>
    intro msgs h
    simp only [resolveLoop]
    exact resolvedToolCalls_append _ _ h (by decide)
  | succ d ih =>
    intro msgs h
    cases hc : complete msgs with
    | FinalAnswer t =>
      simp only [resolveLoop, hc]
      exact resolvedToolCalls_append _ _ h (by simp [resolvedToolCalls])
    | ToolCallRequest id name args =>
      simp only [resolveLoop, hc]
      refine ih _ (resolvedToolCalls_append _ _ h ?_)
      cases htool : tool id name args <;>
        simp [resolvedToolCalls, toolCallMessage, toolResultMessage]

/-! ### Claim theorems for the orchestrator -/

/-- C1: when the Completion Client keeps returning tool-call requests, the
tool-call resolution loop of `sendMessage` runs for exactly the fixed
maximum depth (the loop is a total function, so it never diverges) and the
turn ends with exactly one synthesized assistant Message — the middle of
the turn holds only tool-call records and tool results, never another
plain assistant Message. -/
theorem toolLoop_bounded_synthesis
    (complete : List Message → CompletionResult)
    (tool : Nat → String → String → Except String String)
    (msgs : List Message)
    (hAll : ∀ h, ∃ id nm args, complete h = .ToolCallRequest id nm args) :
    ∃ mid, resolveLoop complete tool maxToolDepth msgs =
        msgs ++ mid ++ [limitMessage] ∧
      mid.length = 2 * maxToolDepth ∧
      ∀ m ∈ mid, ¬(m.role = "assistant" ∧ m.toolCall = none) :=
  resolveLoop_allToolCalls complete tool hAll maxToolDepth msgs

/-- Witness for C1: a client that always asks for another tool call. -/
theorem toolLoop_bounded_synthesis_witness :
    (∀ h : List Message,
      ∃ id nm args, (fun _ => CompletionResult.ToolCallRequest 0 "docs" "q") h =
        CompletionResult.ToolCallRequest id nm args) ∧
    ∃ mid, resolveLoop (fun _ => CompletionResult.ToolCallRequest 0 "docs" "q")
        (fun _ _ _ => Except.ok "r") maxToolDepth [] =
        [] ++ mid ++ [limitMessage] ∧
      mid.length = 2 * maxToolDepth ∧
      ∀ m ∈ mid, ¬(m.role = "assistant" ∧ m.toolCall = none) :=
  ⟨fun _ => ⟨0, "docs", "q", rfl⟩,
    toolLoop_bounded_synthesis _ _ [] (fun _ => ⟨0, "docs", "q", rfl⟩)⟩

/-- C3: a `sendMessage` call while a turn is in flight for the session is
rejected with `Busy`; the session state — including the in-flight turn's
message ordering — is left untouched and nothing is queued. -/
theorem sendMessage_busy_rejected
    (complete : List Message → CompletionResult)
    (tool : Nat → String → String → Except String String)
    (persist : List Message → PersistOutcome)
    (s : Session) (text : String) (hb : s.busy = true) :
    sendMessage complete tool persist s text = (s, .error AgentError.Busy) := by
  simp [sendMessage, hb]

/-- Witness for C3 at a concrete busy session. -/
theorem sendMessage_busy_rejected_witness :
    (Session.mk [] [] 0 true).busy = true ∧
      sendMessage (fun _ => CompletionResult.FinalAnswer "x")
        (fun _ _ _ => Except.ok "r") persistOk (Session.mk [] [] 0 true)
        "hello" = (Session.mk [] [] 0 true, .error AgentError.Busy) :=
  ⟨rfl, sendMessage_busy_rejected _ _ _ _ _ rfl⟩

/-- C4: every successful `sendMessage(text)` returns the full updated
message sequence of the active conversation — the prior history, then the
user Message for `text`, then the turn's tool exchange, then the final
assistant Message — and that value is exactly the in-memory sequence. -/
theorem sendMessage_returns_full_sequence
    (complete : List Message → CompletionResult)
    (tool : Nat → String → String → Except String String)
    (persist : List Message → PersistOutcome)
    (s : Session) (text : String) (s' : Session) (r : List Message)
    (h : sendMessage complete tool persist s text = (s', Except.ok r)) :
    s'.messages = r ∧
    ∃ mid last, r = s.messages ++ userMessage text :: (mid ++ [last]) ∧
      last.role = "assistant" ∧
      ∀ m ∈ mid, m.toolCall ≠ none ∨ m.role = "tool" := by
  by_cases hb : s.busy = true
  · simp [sendMessage, hb] at h
  · simp only [sendMessage, Bool.not_eq_true] at h hb
    rw [if_neg (by simp [hb])] at h
    obtain ⟨mid, last, heq, hrole, -, hmid⟩ :=
      resolveLoop_shape complete tool maxToolDepth
        (s.messages ++ [userMessage text])
    cases hp : persist (resolveLoop complete tool maxToolDepth
        (s.messages ++ [userMessage text])) with
    | ok =>
      simp only [hp] at h
      obtain ⟨hs', hr⟩ := Prod.mk.injEq .. ▸ h
      have hr' : r = resolveLoop complete tool maxToolDepth
          (s.messages ++ [userMessage text]) := by
        cases hr' : r
        all_goals simp_all
      refine ⟨?_, mid, last, ?_, hrole, hmid⟩
      · rw [← hs']
        simpa using hr'.symm
      · rw [hr', heq]
        simp
    | ioFailure =>
      simp [hp] at h

/-- Witness for C4: a turn that immediately produces a final answer. -/
theorem sendMessage_returns_full_sequence_witness :
    sendMessage (fun _ => CompletionResult.FinalAnswer "ok")
        (fun _ _ _ => Except.ok "r") persistOk (Session.mk [] [] 0 false)
        "q" =
      (Session.mk [userMessage "q", { role := "assistant", content := "ok" }]
        [userMessage "q", { role := "assistant", content := "ok" }] 1 false,
       Except.ok [userMessage "q",
         { role := "assistant", content := "ok" }]) ∧
    (Session.mk [userMessage "q", { role := "assistant", content := "ok" }]
        [userMessage "q", { role := "assistant", content := "ok" }] 1
        false).messages =
      [userMessage "q", { role := "assistant", content := "ok" }] ∧
    ∃ mid last,
      [userMessage "q", { role := "assistant", content := "ok" }] =
        (Session.mk [] [] 0 false).messages ++
          userMessage "q" :: (mid ++ [last]) ∧
      last.role = "assistant" ∧
      ∀ m ∈ mid, m.toolCall ≠ none ∨ m.role = "tool" := by
  have h : sendMessage (fun _ => CompletionResult.FinalAnswer "ok")
      (fun _ _ _ => Except.ok "r") persistOk (Session.mk [] [] 0 false)
      "q" =
      (Session.mk [userMessage "q", { role := "assistant", content := "ok" }]
        [userMessage "q", { role := "assistant", content := "ok" }] 1 false,
       Except.ok [userMessage "q",
         { role := "assistant", content := "ok" }]) := rfl
  exact ⟨h, sendMessage_returns_full_sequence _ _ _ _ _ _ _ h⟩

/-- C5: when the History Store `append` fails with `IOFailure`, the
in-memory conversation is not rolled back — the whole turn, including the
just-appended user Message, stays in the active sequence — and the error
is surfaced to the caller instead of being swallowed. -/
theorem sendMessage_ioFailure_no_rollback
    (complete : List Message → CompletionResult)
    (tool : Nat → String → String → Except String String)
    (persist : List Message → PersistOutcome)
    (s : Session) (text : String) (hb : s.busy = false)
    (hfail : persist (resolveLoop complete tool maxToolDepth
        (s.messages ++ [userMessage text])) = PersistOutcome.ioFailure) :
    (sendMessage complete tool persist s text).2 =
        .error AgentError.IOFailure ∧
    (sendMessage complete tool persist s text).1.messages =
      resolveLoop complete tool maxToolDepth
        (s.messages ++ [userMessage text]) ∧
    ∃ mid, (sendMessage complete tool persist s text).1.messages =
      s.messages ++ userMessage text :: mid := by
  obtain ⟨mid, last, heq, -, -, -⟩ :=
    resolveLoop_shape complete tool maxToolDepth
      (s.messages ++ [userMessage text])
  have hsend : sendMessage complete tool persist s text =
      ({ messages := resolveLoop complete tool maxToolDepth
           (s.messages ++ [userMessage text]),
         persisted := s.persisted, appendCount := s.appendCount + 1,
         busy := false },
       .error AgentError.IOFailure) := by
    simp only [sendMessage, hb, Bool.false_eq_true, if_false, hfail]
  rw [hsend]
  refine ⟨rfl, rfl, mid ++ [last], ?_⟩
  show resolveLoop complete tool maxToolDepth
      (s.messages ++ [userMessage text]) =
    s.messages ++ userMessage text :: (mid ++ [last])
  rw [heq]
  simp

/-- Witness for C5: an `append` that always fails. -/
theorem sendMessage_ioFailure_no_rollback_witness :
    (Session.mk [] [] 0 false).busy = false ∧
    (fun _ => PersistOutcome.ioFailure)
        (resolveLoop (fun _ => CompletionResult.FinalAnswer "ok")
          (fun _ _ _ => Except.ok "r") maxToolDepth
          ((Session.mk [] [] 0 false).messages ++ [userMessage "q"])) =
      PersistOutcome.ioFailure ∧
    (sendMessage (fun _ => CompletionResult.FinalAnswer "ok")
        (fun _ _ _ => Except.ok "r") (fun _ => PersistOutcome.ioFailure)
        (Session.mk [] [] 0 false) "q").2 = .error AgentError.IOFailure ∧
    (sendMessage (fun _ => CompletionResult.FinalAnswer "ok")
        (fun _ _ _ => Except.ok "r") (fun _ => PersistOutcome.ioFailure)
        (Session.mk [] [] 0 false) "q").1.messages =
      resolveLoop (fun _ => CompletionResult.FinalAnswer "ok")
        (fun _ _ _ => Except.ok "r") maxToolDepth
        ((Session.mk [] [] 0 false).messages ++ [userMessage "q"]) ∧
    ∃ mid, (sendMessage (fun _ => CompletionResult.FinalAnswer "ok")
        (fun _ _ _ => Except.ok "r") (fun _ => PersistOutcome.ioFailure)
        (Session.mk [] [] 0 false) "q").1.messages =
      (Session.mk [] [] 0 false).messages ++ userMessage "q" :: mid :=
  ⟨rfl, rfl,
    (sendMessage_ioFailure_no_rollback _ _ _ _ _ rfl rfl).1,
    (sendMessage_ioFailure_no_rollback _ _ _ _ _ rfl rfl).2.1,
    (sendMessage_ioFailure_no_rollback _ _ _ _ _ rfl rfl).2.2⟩

/-- One completed turn: the busy flag is clear again, the History Store
holds exactly the in-memory sequence, `append` was invoked exactly once
more, and no orphaned tool call was introduced. -/
theorem stepTurn_props (complete : List Message → CompletionResult)
    (tool : Nat → String → String → Except String String)
    (s : Session) (text : String) (hb : s.busy = false) :
    (stepTurn complete tool s text).busy = false ∧
    (stepTurn complete tool s text).persisted =
      (stepTurn complete tool s text).messages ∧
    (stepTurn complete tool s text).appendCount = s.appendCount + 1 ∧
    (resolvedToolCalls s.messages = true →
      resolvedToolCalls (stepTurn complete tool s text).messages = true) := by
  have hstep : stepTurn complete tool s text =
      { messages := resolveLoop complete tool maxToolDepth
          (s.messages ++ [userMessage text]),
        persisted := resolveLoop complete tool maxToolDepth
          (s.messages ++ [userMessage text]),
        appendCount := s.appendCount + 1, busy := false } := by
    simp only [stepTurn, sendMessage, hb, Bool.false_eq_true, if_false,
      persistOk]
  rw [hstep]
  refine ⟨rfl, rfl, rfl, fun h0 => ?_⟩
  refine resolveLoop_resolved complete tool maxToolDepth _ ?_
  refine resolvedToolCalls_append _ _ h0 ?_
  simp [resolvedToolCalls, userMessage]

/-- The per-turn invariant carries through any sequence of turns. -/
theorem runTurns_invariant (complete : List Message → CompletionResult)
    (tool : Nat → String → String → Except String String) :
    ∀ (texts : List String) (s : Session), s.busy = false →
      s.persisted = s.messages → resolvedToolCalls s.messages = true →
      (runTurns complete tool texts s).busy = false ∧
      (runTurns complete tool texts s).persisted =
        (runTurns complete tool texts s).messages ∧
      (runTurns complete tool texts s).appendCount =
        s.appendCount + texts.length ∧
      resolvedToolCalls (runTurns complete tool texts s).messages = true := by
  intro texts
  induction texts with
  | nil =>
    intro s hb hp hr
    exact ⟨hb, hp, rfl, hr⟩
  | cons t ts ih =>
    intro s hb hp hr
    obtain ⟨hb', hp', hc', hr'⟩ := stepTurn_props complete tool s t hb
    have hrun : runTurns complete tool (t :: ts) s =
        runTurns complete tool ts (stepTurn complete tool s t) := rfl
    rw [hrun]
    obtain ⟨ib, ip, ic, ir⟩ := ih (stepTurn complete tool s t) hb' hp' (hr' hr)
    refine ⟨ib, ip, ?_, ir⟩
    rw [ic, hc']
    simp
    omega

/-- C2: over any non-empty sequence of completed turns the History Store
`append` runs exactly once per turn, the persisted record equals the
in-memory sequence after every turn, and the persisted record never
contains a tool-call record without its resolution. -/
theorem persistence_no_drift (complete : List Message → CompletionResult)
    (tool : Nat → String → String → Except String String)
    (s0 : Session) (text : String) (texts : List String)
    (hb : s0.busy = false) (h0 : resolvedToolCalls s0.messages = true) :
    (runTurns complete tool (text :: texts) s0).persisted =
      (runTurns complete tool (text :: texts) s0).messages ∧
    (runTurns complete tool (text :: texts) s0).appendCount =
      s0.appendCount + (text :: texts).length ∧
    resolvedToolCalls
      (runTurns complete tool (text :: texts) s0).persisted = true := by
  obtain ⟨hb', hp', hc', hr'⟩ := stepTurn_props complete tool s0 text hb
  have hrun : runTurns complete tool (text :: texts) s0 =
      runTurns complete tool texts (stepTurn complete tool s0 text) := rfl
  obtain ⟨ib, ip, ic, ir⟩ :=
    runTurns_invariant complete tool texts
      (stepTurn complete tool s0 text) hb' hp' (hr' h0)
  rw [hrun]
  refine ⟨ip, ?_, ?_⟩
  · rw [ic, hc']
    simp
    omega
  · rw [ip]
    exact ir

/-- Witness for C2: one turn with an immediate final answer. -/
theorem persistence_no_drift_witness :
    (Session.mk [] [] 0 false).busy = false ∧
    resolvedToolCalls (Session.mk [] [] 0 false).messages = true ∧
    ((runTurns (fun _ => CompletionResult.FinalAnswer "ok")
        (fun _ _ _ => Except.ok "r") ["hi"]
        (Session.mk [] [] 0 false)).persisted =
      (runTurns (fun _ => CompletionResult.FinalAnswer "ok")
        (fun _ _ _ => Except.ok "r") ["hi"]
        (Session.mk [] [] 0 false)).messages ∧
    (runTurns (fun _ => CompletionResult.FinalAnswer "ok")
        (fun _ _ _ => Except.ok "r") ["hi"]
        (Session.mk [] [] 0 false)).appendCount =
      (Session.mk [] [] 0 false).appendCount + (["hi"] : List String).length ∧
    resolvedToolCalls
      (runTurns (fun _ => CompletionResult.FinalAnswer "ok")
        (fun _ _ _ => Except.ok "r") ["hi"]
        (Session.mk [] [] 0 false)).persisted = true) :=
  ⟨rfl, rfl,
    persistence_no_drift (fun _ => CompletionResult.FinalAnswer "ok")
      (fun _ _ _ => Except.ok "r") (Session.mk [] [] 0 false) "hi" []
      rfl rfl⟩

/-! ## Tool Process Manager request correlation (spec-modelled)

The Tool Process Manager is part of the Rust backend, not under `src/`;
its correlation map is modelled from the spec (§4.3, §9: "a dedicated
reader task feeding a correlation map (request id → pending response
slot)"). -/

/-- Modelled from the spec (§4.3): the manager's bookkeeping — the
auto-incrementing request id and the correlation map from outstanding
request id to the caller awaiting it. -/
structure ToolManagerState where
  nextId : Nat
  pending : List (Nat × Nat)
deriving Repr, DecidableEq

/-- Modelled from the spec (§4.3): `call` sends one correlated request
with an auto-incrementing id and records the caller as awaiting that
id. -/
def issueCall (st : ToolManagerState) (caller : Nat) :
    ToolManagerState × Nat :=
  ({ nextId := st.nextId + 1,
     pending := st.pending ++ [(st.nextId, caller)] }, st.nextId)

/-- Modelled from the spec (§4.3): an incoming response is matched to the
outstanding request with the same id and delivered to that caller; a
response whose id matches nothing outstanding is discarded. -/
def onResponse (st : ToolManagerState) (id : Nat) (v : String) :
    ToolManagerState × Option (Nat × String) :=
  match st.pending.find? (fun p => p.1 == id) with
  | some (_, caller) =>
    ({ st with pending := st.pending.filter (fun p => p.1 != id) },
     some (caller, v))
  | none => (st, none)

/-- Searching with `find?` skips a block known not to contain the wanted id. -/
theorem find?_skip (i : Nat) (l r : List (Nat × Nat))
    (h : ∀ p ∈ l, p.1 ≠ i) :
    List.find? (fun p => p.1 == i) (l ++ r) =
      List.find? (fun p => p.1 == i) r := by
  induction l with
  | nil => rfl
  | cons p ps ih =>
    have hp : (p.1 == i) = false :=
      beq_eq_false_iff_ne.mpr (h p (List.mem_cons_self p ps))
    simp only [List.cons_append, List.find?, hp]
    exact ih (fun q hq => h q (List.mem_cons_of_mem p hq))

/-- Filtering keeps a block known not to contain the wanted id. -/
theorem filter_keep (i : Nat) (l : List (Nat × Nat))
    (h : ∀ p ∈ l, p.1 ≠ i) :
    List.filter (fun p => p.1 != i) l = l :=
  List.filter_eq_self.mpr (fun p hp => bne_iff_ne.mpr (h p hp))

/-- C6: two `call`s issued concurrently (callers `A` then `B`) whose
responses arrive in the reverse of issuance order are each delivered to
their own original caller — correlation is by id, not by order. -/
theorem call_correlation_by_id (st0 : ToolManagerState) (A B : Nat)
    (vA vB : String) (hinv : ∀ p ∈ st0.pending, p.1 < st0.nextId) :
    (onResponse (issueCall (issueCall st0 A).1 B).1
        (issueCall (issueCall st0 A).1 B).2 vB).2 = some (B, vB) ∧
    (onResponse
        (onResponse (issueCall (issueCall st0 A).1 B).1
          (issueCall (issueCall st0 A).1 B).2 vB).1
        (issueCall st0 A).2 vA).2 = some (A, vA) := by
  have h0B : ∀ p ∈ st0.pending, p.1 ≠ st0.nextId + 1 := by
    intro p hp
    have := hinv p hp
    omega
  have h0A : ∀ p ∈ st0.pending, p.1 ≠ st0.nextId := by
    intro p hp
    have := hinv p hp
    omega
  have hstep : (issueCall (issueCall st0 A).1 B).1.pending =
      st0.pending ++ [(st0.nextId, A), (st0.nextId + 1, B)] := by
    simp [issueCall]
  have hid2 : (issueCall (issueCall st0 A).1 B).2 = st0.nextId + 1 := rfl
  have hid1 : (issueCall st0 A).2 = st0.nextId := rfl
  have hne : (st0.nextId == st0.nextId + 1) = false :=
    beq_eq_false_iff_ne.mpr (by omega)
  have hfindB : List.find? (fun p => p.1 == st0.nextId + 1)
      (st0.pending ++ [(st0.nextId, A), (st0.nextId + 1, B)]) =
      some (st0.nextId + 1, B) := by
    rw [find?_skip _ _ _ h0B]
    simp [List.find?, hne]
  constructor
  · rw [hid2]
    simp only [onResponse, hstep, hfindB]
  · rw [hid1, hid2]
    have hkeep : ((st0.nextId : Nat) != st0.nextId + 1) = true :=
      bne_iff_ne.mpr (by omega)
    have hmid : (onResponse (issueCall (issueCall st0 A).1 B).1
        (st0.nextId + 1) vB).1 =
        ⟨(issueCall (issueCall st0 A).1 B).1.nextId,
         st0.pending ++ [(st0.nextId, A)]⟩ := by
      simp only [onResponse, hstep, hfindB]
      rw [List.filter_append, filter_keep _ _ h0B]
      simp [List.filter, hkeep]
    have hfindA : List.find? (fun p => p.1 == st0.nextId)
        (st0.pending ++ [(st0.nextId, A)]) = some (st0.nextId, A) := by
      rw [find?_skip _ _ _ h0A]
      simp [List.find?]
    rw [hmid]
    simp only [onResponse, hfindA]

/-- Witness for C6 with a fresh manager and callers 10, 20. -/
theorem call_correlation_by_id_witness :
    (∀ p ∈ (ToolManagerState.mk 0 []).pending,
      p.1 < (ToolManagerState.mk 0 []).nextId) ∧
    (onResponse (issueCall (issueCall (ToolManagerState.mk 0 []) 10).1 20).1
        (issueCall (issueCall (ToolManagerState.mk 0 []) 10).1 20).2
        "result-b").2 = some (20, "result-b") ∧
    (onResponse
        (onResponse
          (issueCall (issueCall (ToolManagerState.mk 0 []) 10).1 20).1
          (issueCall (issueCall (ToolManagerState.mk 0 []) 10).1 20).2
          "result-b").1
        (issueCall (ToolManagerState.mk 0 []) 10).2 "result-a").2 =
      some (10, "result-a") :=
  ⟨by simp, call_correlation_by_id (ToolManagerState.mk 0 []) 10 20
    "result-a" "result-b" (by simp)⟩

/-! ## Core configuration resolution (spec-modelled)

The front end does pass an explicit `ChatSettings` value to
`initialize_agent` (`src/src/App.tsx`, `initializeAgent`), but the core
that consumes configuration is the Rust backend, not under `src/`.  The
spec's design notes (§9) record what that source does: "Ambient global
settings (API key read from environment) should be replaced by explicit
configuration" — i.e. the source reads the API key from the environment —
and the repository README (`src/unnamed/part_002`) documents: "All
configuration is done through environment variables", with defaults
`OPENAI_API_BASE_URL = https://api.openai.com/v1`,
`OPENAI_API_MODEL = gpt-4-turbo`, `HISTORY_PATH = ~/.ai-agent/history`. -/

/-- Modelled from the spec (§9 design notes) and the repository README:
an environment-variable lookup (the ambient global state the core
reads). -/
def lookupEnv (env : List (String × String)) (k : String) : Option String :=
  (env.find? (fun p => p.1 == k)).map (fun p => p.2)

/-- Modelled from the spec (§9 design notes) and the repository README:
the configuration the core actually runs with — environment variables
with the README's documented defaults. -/
def effectiveSettings (env : List (String × String)) : ChatSettings :=
  { openai_api_key := (lookupEnv env "OPENAI_API_KEY").getD "",
    openai_api_base_url :=
      (lookupEnv env "OPENAI_API_BASE_URL").getD "https://api.openai.com/v1",
    openai_api_model :=
      (lookupEnv env "OPENAI_API_MODEL").getD "gpt-4-turbo",
    history_path :=
      (lookupEnv env "HISTORY_PATH").getD "~/.ai-agent/history" }

/-- Counterexample to C7 as stated: the core's configuration IS read from
ambient environment state — the resolved API key follows the
`OPENAI_API_KEY` environment variable, and two runs that differ only in
ambient environment (no explicit Settings differ) resolve different
configurations. -/
theorem settings_read_from_env :
    (effectiveSettings [("OPENAI_API_KEY", "ambient-key")]).openai_api_key =
      "ambient-key" ∧
    effectiveSettings [("OPENAI_API_KEY", "key-one")] ≠
      effectiveSettings [("OPENAI_API_KEY", "key-two")] := by
  constructor
  · rfl
  · intro h
    have := congrArg ChatSettings.openai_api_key h
    simp [effectiveSettings, lookupEnv, List.find?] at this

/-- C7 amended: the core's configuration resolution is a deterministic
function of the ambient environment — a set variable wins, an unset one
falls back to the README's documented default. -/
theorem settings_env_resolution (env : List (String × String)) (k : String)
    (hk : lookupEnv env "OPENAI_API_KEY" = some k) :
    (effectiveSettings env).openai_api_key = k ∧
    (lookupEnv env "OPENAI_API_BASE_URL" = none →
      (effectiveSettings env).openai_api_base_url =
        "https://api.openai.com/v1") ∧
    (lookupEnv env "OPENAI_API_MODEL" = none →
      (effectiveSettings env).openai_api_model = "gpt-4-turbo") ∧
    (lookupEnv env "HISTORY_PATH" = none →
      (effectiveSettings env).history_path = "~/.ai-agent/history") := by
  refine ⟨?_, fun h => ?_, fun h => ?_, fun h => ?_⟩
  · simp [effectiveSettings, hk]
  · simp [effectiveSettings, h]
  · simp [effectiveSettings, h]
  · simp [effectiveSettings, h]

/-- Witness for the amended C7: only the API key is set in the
environment. -/
theorem settings_env_resolution_witness :
    lookupEnv [("OPENAI_API_KEY", "sk-test")] "OPENAI_API_KEY" =
      some "sk-test" ∧
    (effectiveSettings [("OPENAI_API_KEY", "sk-test")]).openai_api_key =
      "sk-test" ∧
    (lookupEnv [("OPENAI_API_KEY", "sk-test")] "OPENAI_API_BASE_URL" =
        none →
      (effectiveSettings
        [("OPENAI_API_KEY", "sk-test")]).openai_api_base_url =
        "https://api.openai.com/v1") ∧
    (lookupEnv [("OPENAI_API_KEY", "sk-test")] "OPENAI_API_MODEL" = none →
      (effectiveSettings [("OPENAI_API_KEY", "sk-test")]).openai_api_model =
        "gpt-4-turbo") ∧
    (lookupEnv [("OPENAI_API_KEY", "sk-test")] "HISTORY_PATH" = none →
      (effectiveSettings [("OPENAI_API_KEY", "sk-test")]).history_path =
        "~/.ai-agent/history") :=
  ⟨rfl, settings_env_resolution [("OPENAI_API_KEY", "sk-test")] "sk-test"
    rfl⟩

/-! ## `ChatMessage.processContent` code-fence splitting
(`src/unnamed/part_003`)

The component splits message content with
`content.split(/(```[\w-]*\n[\s\S]*?\n```)/g)` — the capture group makes
`split` interleave the matched fences with the surrounding text — and
re-matches each part with `/```([\w-]*)\n([\s\S]*?)\n```/` to render code
blocks.  The regex is embedded over `List Char`: the language run
`[\w-]*` is greedy but deterministic (no word character is a newline),
and the lazy body `[\s\S]*?` ends at the first occurrence of a newline
followed by three backticks. -/

/-- The character class `[\w-]` of the code-fence regex: JavaScript `\w`
(ASCII letters, digits, underscore) plus the hyphen. -/
def isWordDash (c : Char) : Bool :=
  c.isAlpha || c.isDigit || c == '_' || c == '-'

/-- The opening three-backtick marker of the regex. -/
def fenceChars : List Char := "```".data

/-- The closing delimiter (newline then three backticks) that terminates
the lazy body. -/
def closeChars : List Char := "\n```".data

/-- Boolean prefix test: `leadsWith p l` holds when `p` is a prefix of
`l`. -/
def leadsWith : List Char → List Char → Bool
  | [], _ => true
  | _ :: _, [] => false
  | p :: ps, c :: cs => p == c && leadsWith ps cs

/-- The lazy tail `[\s\S]*?\n```` of the regex: take the shortest body
terminated by the first occurrence of `closeChars`, returning the body
and what follows the closing fence. -/
def findClose : List Char → Option (List Char × List Char)
  | [] => none
  | c :: cs =>
    if leadsWith closeChars (c :: cs) then
      some ([], (c :: cs).drop closeChars.length)
    else
      match findClose cs with
      | some (body, rest) => some (c :: body, rest)
      | none => none

/-- One attempted match of the code-fence regex at the start of `s`:
the fence marker, the greedy language run, the required newline, then
the lazy body; returns `(language, body, rest-after-match)`. -/
def matchAt (s : List Char) : Option (List Char × List Char × List Char) :=
  if leadsWith fenceChars s then
    match (s.drop fenceChars.length).dropWhile isWordDash with
    | [] => none
    | c :: t2 =>
      if c == '\n' then
        match findClose t2 with
        | some (body, rest) =>
          some ((s.drop fenceChars.length).takeWhile isWordDash, body, rest)
        | none => none
      else none
  else none

/-- Leftmost match in `s`: the text before the first matching position,
the match's captures, and the rest after the match. -/
def findFence :
    List Char → Option (List Char × List Char × List Char × List Char)
  | [] => none
  | c :: cs =>
    match matchAt (c :: cs) with
    | some (lang, body, rest) => some ([], lang, body, rest)
    | none =>
      match findFence cs with
      | some (pre, lang, body, rest) => some (c :: pre, lang, body, rest)
      | none => none

/-- The exact text of a code-fence match with language `L` and body
`B`. -/
def fenceOf (L B : List Char) : List Char :=
  fenceChars ++ L ++ '\n' :: (B ++ closeChars)

/-- Fuelled worker for the split; each found match consumes at least
eight characters, so `s.length` fuel always suffices. -/
def splitFencesAux : Nat → List Char → List (List Char)
  | 0, s => [s]
  | fuel + 1, s =>
    match findFence s with
    | none => [s]
    | some (pre, lang, body, rest) =>
      pre :: fenceOf lang body :: splitFencesAux fuel rest

/-- The embedding of
`content.split(/(```[\w-]*\n[\s\S]*?\n```)/g)` from `processContent`:
pieces of plain text alternating with the captured matches themselves. -/
def splitFences (s : List Char) : List (List Char) :=
  splitFencesAux s.length s

/-- The embedding of the per-part re-match
`part.match(/```([\w-]*)\n([\s\S]*?)\n```/)` from `processContent`:
leftmost unanchored match, returning the two captures (language, code). -/
def scanMatch : List Char → Option (List Char × List Char)
  | [] => none
  | c :: cs =>
    match matchAt (c :: cs) with
    | some (lang, body, _) => some (lang, body)
    | none => scanMatch cs

/-- Concatenation of the parts produced by the split. -/
def joinParts (parts : List (List Char)) : List Char :=
  parts.foldr (· ++ ·) []

/-! ### Lemmas about the code-fence matcher -/

/-- Characterization of `leadsWith`. -/
theorem leadsWith_iff (p : List Char) :
    ∀ l, leadsWith p l = true ↔ ∃ t, l = p ++ t := by
  induction p with
  | nil =>
    intro l
    simp [leadsWith]
  | cons x xs ih =>
    intro l
    cases l with
    | nil =>
      simp [leadsWith]
    | cons c cs =>
      simp only [leadsWith, Bool.and_eq_true, beq_iff_eq]
      constructor
      · rintro ⟨hx, h⟩
        obtain ⟨t, rfl⟩ := (ih cs).mp h
        exact ⟨t, by simp [hx]⟩
      · rintro ⟨t, ht⟩
        have h1 : x = c ∧ cs = xs ++ t := by
          have := List.cons.injEq c cs x (xs ++ t) ▸ ht
          exact ⟨this.1.symm, this.2⟩
        exact ⟨h1.1, (ih cs).mpr ⟨t, h1.2⟩⟩

/-- A prefix of itself plus anything. -/
theorem leadsWith_self_append (p t : List Char) :
    leadsWith p (p ++ t) = true :=
  (leadsWith_iff p (p ++ t)).mpr ⟨t, rfl⟩

/-- A successful prefix test survives truncating the extension, provided
the truncated list is still at least as long as the pattern. -/
theorem leadsWith_extend (p : List Char) :
    ∀ (x u : List Char), p.length ≤ x.length →
      leadsWith p (x ++ u) = true → leadsWith p x = true := by
  induction p with
  | nil =>
    intro x u _ _
    simp [leadsWith]
  | cons a ps ih =>
    intro x u hlen h
    cases x with
    | nil => simp at hlen
    | cons c cs =>
      simp only [List.cons_append, leadsWith, Bool.and_eq_true] at h ⊢
      exact ⟨h.1, ih cs u (by simpa using hlen) h.2⟩

/-- When `closeChars` is a prefix, `findClose` answers immediately. -/
theorem findClose_pos (l : List Char)
    (h : leadsWith closeChars l = true) :
    findClose l = some ([], l.drop closeChars.length) := by
  cases l with
  | nil => exact absurd h (by decide)
  | cons c cs => simp only [findClose, if_pos h]

/-- What a successful `findClose` tells us: the input decomposes as
body, closer, rest, and the closer occurs nowhere inside the body. -/
theorem findClose_eq : ∀ (l body rest : List Char),
    findClose l = some (body, rest) →
    l = body ++ closeChars ++ rest ∧
      ∀ i < body.length, leadsWith closeChars (l.drop i) = false := by
  intro l
  induction l with
  | nil =>
    intro body rest h
    simp [findClose] at h
  | cons c cs ih =>
    intro body rest h
    by_cases hlw : leadsWith closeChars (c :: cs) = true
    · rw [findClose_pos _ hlw] at h
      simp only [Option.some.injEq, Prod.mk.injEq] at h
      obtain ⟨hb, hr⟩ := h
      subst hb
      obtain ⟨t, ht⟩ := (leadsWith_iff _ _).mp hlw
      refine ⟨?_, by simp⟩
      rw [ht] at hr ⊢
      rw [List.drop_left] at hr
      simp [hr]
    · have hlw' : leadsWith closeChars (c :: cs) = false := by
        simpa using hlw
      rw [findClose, if_neg (by simp [hlw'])] at h
      cases hfc : findClose cs with
      | none =>
        rw [hfc] at h
        simp at h
      | some pr =>
        obtain ⟨body', rest'⟩ := pr
        rw [hfc] at h
        simp only [Option.some.injEq, Prod.mk.injEq] at h
        obtain ⟨hb, hr⟩ := h
        subst hb
        subst hr
        obtain ⟨heq, hmin⟩ := ih body' rest' hfc
        constructor
        · simp [heq]
        · intro i hi
          cases i with
          | zero => simpa using hlw'
          | succ j =>
            have hdj : (c :: cs).drop (j + 1) = cs.drop j := rfl
            rw [hdj]
            exact hmin j (by simpa using Nat.succ_lt_succ_iff.mp hi)

/-- When the body region contains no early closer, `findClose` returns
exactly that body. -/
theorem findClose_exact : ∀ (B rest : List Char),
    (∀ i < B.length,
      leadsWith closeChars ((B ++ closeChars ++ rest).drop i) = false) →
    findClose (B ++ closeChars ++ rest) = some (B, rest) := by
  intro B
  induction B with
  | nil =>
    intro rest _
    simp only [List.nil_append]
    rw [findClose_pos _ (leadsWith_self_append _ _)]
    rw [List.drop_left]
  | cons c B' ih =>
    intro rest h
    have h0 : leadsWith closeChars (c :: (B' ++ closeChars ++ rest)) = false := by
      have := h 0 (by simp)
      simpa using this
    have hrec := ih rest (fun i hi => by
      have := h (i + 1) (by simp only [List.length_cons]; omega)
      simpa using this)
    show findClose (c :: (B' ++ closeChars ++ rest)) = some (c :: B', rest)
    rw [findClose, if_neg (by rw [h0]; exact Bool.false_ne_true), hrec]

/-- The matcher fails on the empty string. -/
theorem matchAt_nil : matchAt [] = none := by decide

/-- Both `takeWhile` and `dropWhile` stop exactly at the first failing
character. -/
theorem takeWhile_stop (p : Char → Bool) (L : List Char) (x : Char)
    (Y : List Char) (hL : ∀ c ∈ L, p c = true) (hx : p x = false) :
    (L ++ x :: Y).takeWhile p = L ∧ (L ++ x :: Y).dropWhile p = x :: Y := by
  induction L with
  | nil => simp [List.takeWhile, List.dropWhile, hx]
  | cons a as ih =>
    have ha : p a = true := hL a (by simp)
    have ih' := ih (fun c hc => hL c (by simp [hc]))
    constructor
    · simp only [List.cons_append, List.takeWhile, ha, List.append_eq, ih'.1]
    · simp only [List.cons_append, List.dropWhile, ha, List.append_eq, ih'.2]

/-- What a successful `matchAt` tells us: the input starts with the exact
fence text, the language run is all word characters, and the body
contains no early closer. -/
theorem matchAt_eq (s L B rest : List Char)
    (h : matchAt s = some (L, B, rest)) :
    s = fenceOf L B ++ rest ∧ (∀ c ∈ L, isWordDash c = true) ∧
      ∀ i < B.length,
        leadsWith closeChars ((B ++ closeChars ++ rest).drop i) = false := by
  unfold matchAt at h
  by_cases hf : leadsWith fenceChars s = true
  case neg =>
    rw [if_neg hf] at h
    exact absurd h (by simp)
  rw [if_pos hf] at h
  obtain ⟨t, rfl⟩ := (leadsWith_iff _ _).mp hf
  rw [List.drop_left] at h
  cases hdw : t.dropWhile isWordDash with
  | nil =>
    rw [hdw] at h
    exact absurd h (by simp)
  | cons c t2 =>
    rw [hdw] at h
    have h1 : (if (c == '\n') = true then
        (match findClose t2 with
         | some (body, rest) =>
           some (t.takeWhile isWordDash, body, rest)
         | none => none)
        else none) = some (L, B, rest) := h
    by_cases hnl : (c == '\n') = true
    case neg =>
      rw [if_neg hnl] at h1
      exact absurd h1 (by simp)
    rw [if_pos hnl] at h1
    have hc : c = '\n' := by simpa using hnl
    subst hc
    cases hfc : findClose t2 with
    | none =>
      rw [hfc] at h1
      exact absurd h1 (by simp)
    | some pr =>
      obtain ⟨body, rest'⟩ := pr
      rw [hfc] at h1
      have h2 : some (t.takeWhile isWordDash, body, rest') =
          some (L, B, rest) := h1
      simp only [Option.some.injEq, Prod.mk.injEq] at h2
      obtain ⟨hLang, hBody, hRest⟩ := h2
      subst hBody
      subst hRest
      obtain ⟨ht2, hmin⟩ := findClose_eq t2 body rest' hfc
      have htw : t = L ++ '\n' :: t2 := by
        rw [← hLang, ← hdw]
        exact (List.takeWhile_append_dropWhile isWordDash t).symm
      refine ⟨?_, ?_, ?_⟩
      · rw [htw, ht2]
        simp [fenceOf]
      · intro ch hch
        rw [← hLang] at hch
        exact List.mem_takeWhile_imp hch
      · intro i hi
        rw [← ht2]
        exact hmin i hi

/-- The matcher succeeds on the exact fence text of a well-formed match,
whatever follows it. -/
theorem matchAt_fenceOf (L B rest : List Char)
    (hL : ∀ c ∈ L, isWordDash c = true)
    (hB : ∀ i < B.length,
      leadsWith closeChars ((B ++ closeChars ++ rest).drop i) = false) :
    matchAt (fenceOf L B ++ rest) = some (L, B, rest) := by
  have hs : fenceOf L B ++ rest =
      fenceChars ++ (L ++ '\n' :: (B ++ closeChars ++ rest)) := by
    simp [fenceOf]
  rw [hs]
  unfold matchAt
  rw [if_pos (leadsWith_self_append _ _)]
  rw [List.drop_left]
  have htk := takeWhile_stop isWordDash L '\n' (B ++ closeChars ++ rest) hL
    (by decide)
  rw [htk.2]
  show (if (('\n' : Char) == '\n') = true then
      (match findClose (B ++ closeChars ++ rest) with
       | some (body, rest') =>
         some ((L ++ '\n' :: (B ++ closeChars ++ rest)).takeWhile isWordDash,
           body, rest')
       | none => none)
      else none) = some (L, B, rest)
  rw [if_pos (by decide)]
  rw [findClose_exact B rest hB]
  show some ((L ++ '\n' :: (B ++ closeChars ++ rest)).takeWhile isWordDash,
      B, rest) = some (L, B, rest)
  rw [htk.1]

/-- A successful match survives extending the input on the right (the
captures do not change; only the rest grows). -/
theorem matchAt_mono (t u L B r : List Char)
    (h : matchAt t = some (L, B, r)) :
    matchAt (t ++ u) = some (L, B, r ++ u) := by
  obtain ⟨heq, hL, hmin⟩ := matchAt_eq t L B r h
  subst heq
  rw [List.append_assoc]
  apply matchAt_fenceOf L B (r ++ u) hL
  intro i hi
  have h1 := hmin i hi
  have hcl : closeChars.length = 4 := rfl
  have hfrm : (B ++ closeChars ++ (r ++ u)).drop i =
      ((B ++ closeChars ++ r).drop i) ++ u := by
    rw [show B ++ closeChars ++ (r ++ u) = (B ++ closeChars ++ r) ++ u by
      simp [List.append_assoc]]
    exact List.drop_append_of_le_length (by
      simp only [List.length_append]
      omega)
  rw [hfrm]
  apply Bool.eq_false_iff.mpr
  intro hcon
  have hxlen : closeChars.length ≤ ((B ++ closeChars ++ r).drop i).length := by
    simp only [List.length_drop, List.length_append]
    omega
  have := leadsWith_extend closeChars _ u hxlen hcon
  rw [h1] at this
  exact Bool.false_ne_true this

/-- The re-match on the exact fence text yields the original captures. -/
theorem scanMatch_fenceOf (L B : List Char)
    (hL : ∀ c ∈ L, isWordDash c = true)
    (hB : ∀ i < B.length,
      leadsWith closeChars ((B ++ closeChars).drop i) = false) :
    scanMatch (fenceOf L B) = some (L, B) := by
  have hmt : matchAt (fenceOf L B) = some (L, B, []) := by
    have hB' : ∀ i < B.length,
        leadsWith closeChars ((B ++ closeChars ++ ([] : List Char)).drop i) =
          false := by
      intro i hi
      have := hB i hi
      simpa using this
    have := matchAt_fenceOf L B [] hL hB'
    simpa using this
  cases hfo : fenceOf L B with
  | nil =>
    exfalso
    have hlen : (fenceOf L B).length = 0 := by rw [hfo]; rfl
    simp [fenceOf, fenceChars, closeChars] at hlen
  | cons c cs =>
    rw [hfo] at hmt
    show (match matchAt (c :: cs) with
      | some (lang, body, _) => some (lang, body)
      | none => scanMatch cs) = some (L, B)
    rw [hmt]

/-- If no suffix of `t` matches, the re-match finds nothing. -/
theorem scanMatch_none (t : List Char)
    (h : ∀ i < t.length, matchAt (t.drop i) = none) :
    scanMatch t = none := by
  induction t with
  | nil => rfl
  | cons c cs ih =>
    show (match matchAt (c :: cs) with
      | some (lang, body, _) => some (lang, body)
      | none => scanMatch cs) = none
    rw [show matchAt (c :: cs) = none from h 0 (by simp)]
    exact ih (fun i hi => h (i + 1) (by simpa using Nat.succ_lt_succ hi))

/-- What a successful `findFence` tells us: the input decomposes as
pre-text, exact match text, rest; the language and body are well formed;
and no match starts anywhere inside the pre-text. -/
theorem findFence_eq : ∀ (s pre L B rest : List Char),
    findFence s = some (pre, L, B, rest) →
    s = pre ++ fenceOf L B ++ rest ∧
      (∀ c ∈ L, isWordDash c = true) ∧
      (∀ i < B.length,
        leadsWith closeChars ((B ++ closeChars ++ rest).drop i) = false) ∧
      ∀ i < pre.length, matchAt (s.drop i) = none := by
  intro s
  induction s with
  | nil =>
    intro pre L B rest h
    simp [findFence] at h
  | cons c cs ih =>
    intro pre L B rest h
    cases hm : matchAt (c :: cs) with
    | some tr =>
      obtain ⟨L', B', r'⟩ := tr
      have h1 : findFence (c :: cs) = some ([], L', B', r') := by
        show (match matchAt (c :: cs) with
          | some (lang, body, rest) => some ([], lang, body, rest)
          | none =>
            match findFence cs with
            | some (pre, lang, body, rest) => some (c :: pre, lang, body, rest)
            | none => none) = some ([], L', B', r')
        rw [hm]
      rw [h1] at h
      simp only [Option.some.injEq, Prod.mk.injEq] at h
      obtain ⟨hpre, hl, hb, hr⟩ := h
      subst hpre
      subst hl
      subst hb
      subst hr
      obtain ⟨heq, hL, hmin⟩ := matchAt_eq _ _ _ _ hm
      exact ⟨by simpa using heq, hL, hmin, by simp⟩
    | none =>
      have h1 : findFence (c :: cs) =
          (match findFence cs with
           | some (pre, lang, body, rest) => some (c :: pre, lang, body, rest)
           | none => none) := by
        show (match matchAt (c :: cs) with
          | some (lang, body, rest) => some ([], lang, body, rest)
          | none =>
            match findFence cs with
            | some (pre, lang, body, rest) => some (c :: pre, lang, body, rest)
            | none => none) =
          (match findFence cs with
           | some (pre, lang, body, rest) => some (c :: pre, lang, body, rest)
           | none => none)
        rw [hm]
      rw [h1] at h
      cases hff : findFence cs with
      | none =>
        rw [hff] at h
        exact absurd h (by simp)
      | some qr =>
        obtain ⟨pre', L', B', r'⟩ := qr
        rw [hff] at h
        have h2 : some (c :: pre', L', B', r') = some (pre, L, B, rest) := h
        simp only [Option.some.injEq, Prod.mk.injEq] at h2
        obtain ⟨hpre, hl, hb, hr⟩ := h2
        subst hl
        subst hb
        subst hr
        subst hpre
        obtain ⟨heq, hL, hmin, hpmin⟩ := ih pre' L' B' r' hff
        refine ⟨by simp [heq], hL, hmin, ?_⟩
        intro i hi
        cases i with
        | zero => simpa using hm
        | succ j =>
          have : (c :: cs).drop (j + 1) = cs.drop j := rfl
          rw [this]
          exact hpmin j (by simpa using Nat.succ_lt_succ_iff.mp hi)

/-- When `findFence` fails, no suffix matches at all. -/
theorem findFence_none : ∀ (s : List Char), findFence s = none →
    ∀ i, matchAt (s.drop i) = none := by
  intro s
  induction s with
  | nil =>
    intro _ i
    simp only [List.drop_nil]
    exact matchAt_nil
  | cons c cs ih =>
    intro h i
    cases hm : matchAt (c :: cs) with
    | some tr =>
      obtain ⟨L', B', r'⟩ := tr
      have h1 : findFence (c :: cs) = some ([], L', B', r') := by
        show (match matchAt (c :: cs) with
          | some (lang, body, rest) => some ([], lang, body, rest)
          | none =>
            match findFence cs with
            | some (pre, lang, body, rest) => some (c :: pre, lang, body, rest)
            | none => none) = some ([], L', B', r')
        rw [hm]
      rw [h1] at h
      exact absurd h (by simp)
    | none =>
      have h1 : findFence (c :: cs) =
          (match findFence cs with
           | some (pre, lang, body, rest) => some (c :: pre, lang, body, rest)
           | none => none) := by
        show (match matchAt (c :: cs) with
          | some (lang, body, rest) => some ([], lang, body, rest)
          | none =>
            match findFence cs with
            | some (pre, lang, body, rest) => some (c :: pre, lang, body, rest)
            | none => none) =
          (match findFence cs with
           | some (pre, lang, body, rest) => some (c :: pre, lang, body, rest)
           | none => none)
        rw [hm]
      rw [h1] at h
      cases hff : findFence cs with
      | some qr =>
        rw [hff] at h
        obtain ⟨pre', L', B', r'⟩ := qr
        exact absurd h (by simp)
      | none =>
        cases i with
        | zero => simpa using hm
        | succ j =>
          have : (c :: cs).drop (j + 1) = cs.drop j := rfl
          rw [this]
          exact ih hff j

/-- The length of the exact match text. -/
theorem fenceOf_length (L B : List Char) :
    (fenceOf L B).length = L.length + B.length + 8 := by
  have h1 : fenceChars.length = 3 := rfl
  have h2 : closeChars.length = 4 := rfl
  simp only [fenceOf, List.length_append, List.length_cons, h1, h2]
  omega

/-- Concatenating the parts of the fuelled split restores the input, for
any fuel. -/
theorem joinParts_splitAux : ∀ (fuel : Nat) (s : List Char),
    joinParts (splitFencesAux fuel s) = s := by
  intro fuel
  induction fuel with
  | zero =>
    intro s
    simp [splitFencesAux, joinParts]
  | succ fuel ih =>
    intro s
    cases hf : findFence s with
    | none => simp [splitFencesAux, hf, joinParts]
    | some pr =>
      obtain ⟨pre, L, B, rest⟩ := pr
      obtain ⟨heq, -, -, -⟩ := findFence_eq s pre L B rest hf
      have hjoin : joinParts (splitFencesAux (fuel + 1) s) =
          pre ++ (fenceOf L B ++ joinParts (splitFencesAux fuel rest)) := by
        simp only [splitFencesAux, hf, joinParts, List.foldr]
      rw [hjoin, ih rest, heq]
      simp

/-- Every part of the fuelled split (with enough fuel) is either plain
text in which the re-match finds nothing, or the exact text of a fence
match from which the re-match recovers precisely the language and body
between the fences. -/
theorem splitAux_parts : ∀ (fuel : Nat) (s : List Char),
    s.length ≤ fuel →
    ∀ p ∈ splitFencesAux fuel s,
      scanMatch p = none ∨
        ∃ L B, p = fenceOf L B ∧ scanMatch p = some (L, B) := by
  intro fuel
  induction fuel with
  | zero =>
    intro s hs p hp
    have hnil : s = [] := List.eq_nil_of_length_eq_zero (Nat.le_zero.mp hs)
    subst hnil
    simp only [splitFencesAux, List.mem_singleton] at hp
    subst hp
    exact Or.inl rfl
  | succ fuel ih =>
    intro s hs p hp
    cases hf : findFence s with
    | none =>
      simp only [splitFencesAux, hf, List.mem_singleton] at hp
      subst hp
      exact Or.inl (scanMatch_none p (fun i _ => findFence_none p hf i))
    | some pr =>
      obtain ⟨pre, L, B, rest⟩ := pr
      obtain ⟨heq, hL, hmin, hpre⟩ := findFence_eq s pre L B rest hf
      simp only [splitFencesAux, hf, List.mem_cons] at hp
      rcases hp with rfl | rfl | hp
      · left
        apply scanMatch_none
        intro i hi
        cases hmc : matchAt (p.drop i) with
        | none => rfl
        | some tr =>
          obtain ⟨L', B', r'⟩ := tr
          exfalso
          have hext := matchAt_mono _ (fenceOf L B ++ rest) _ _ _ hmc
          have hdrop : s.drop i = p.drop i ++ (fenceOf L B ++ rest) := by
            rw [heq, List.append_assoc]
            exact List.drop_append_of_le_length (Nat.le_of_lt hi)
          have hnone := hpre i hi
          rw [hdrop, hext] at hnone
          exact absurd hnone (by simp)
      · right
        refine ⟨L, B, rfl, ?_⟩
        apply scanMatch_fenceOf L B hL
        intro i hi
        have h1 := hmin i hi
        have hsplit : (B ++ closeChars ++ rest).drop i =
            ((B ++ closeChars).drop i) ++ rest :=
          List.drop_append_of_le_length (by
            simp only [List.length_append]
            have hcl : closeChars.length = 4 := rfl
            omega)
        rw [hsplit] at h1
        apply Bool.eq_false_iff.mpr
        intro hcon
        obtain ⟨t, ht⟩ := (leadsWith_iff _ _).mp hcon
        have h2 : leadsWith closeChars
            (((B ++ closeChars).drop i) ++ rest) = true := by
          rw [ht, List.append_assoc]
          exact leadsWith_self_append _ _
        rw [h2] at h1
        exact absurd h1 (by decide)
      · refine ih rest ?_ p hp
        have hslen : s.length =
            pre.length + (fenceOf L B).length + rest.length := by
          rw [heq]
          simp only [List.length_append]
        have hfl := fenceOf_length L B
        omega

/-- C9: `processContent`'s decomposition preserves the content —
concatenating the parts returned by the capture-group split yields the
original string — and every part the re-match recognizes as a code block
is exactly the text of one fence match, whose extracted language tag and
code body are precisely the strings between its fences, unmodified. -/
theorem processContent_split_faithful (s : List Char) :
    joinParts (splitFences s) = s ∧
    ∀ p ∈ splitFences s,
      scanMatch p = none ∨
        ∃ L B, p = fenceOf L B ∧ scanMatch p = some (L, B) :=
  ⟨joinParts_splitAux s.length s,
    splitAux_parts s.length s (Nat.le_refl _)⟩

/-- Witness for C9 on a concrete message containing one code block. -/
theorem processContent_split_faithful_witness :
    joinParts (splitFences "intro\n```js\nlet x = 1\n```\nbye".data) =
      "intro\n```js\nlet x = 1\n```\nbye".data ∧
    "```js\nlet x = 1\n```".data ∈
      splitFences "intro\n```js\nlet x = 1\n```\nbye".data ∧
    scanMatch "```js\nlet x = 1\n```".data =
      some ("js".data, "let x = 1".data) :=
  ⟨(processContent_split_faithful "intro\n```js\nlet x = 1\n```\nbye".data).1,
    by decide, by decide⟩
